import Mathlib

/-!
Shallow embedding of the isolation-forest implementation in
`IsolationForest.hpp` (single-header C++ library), together with proofs
about its specification claims.

Modelling conventions:
* the floating-point value type `T` becomes a linear ordered field `α`
  (instantiated at `ℚ` for concrete evaluations and at `ℝ` for the
  scoring layer, which uses `log` and `pow`);
* the signed index type `I = int64_t` becomes `ℤ` where sentinels
  (`left = right = -1`) matter, and `ℕ` for the always-nonnegative
  range bounds `left`/`right`/`depth` of `build_recursively`;
* `rand()` becomes an explicit stream `rands : ℕ → ℕ` together with a
  call counter `k` that every rand-consuming function threads through;
* the three recursive C++ functions terminate by a decreasing measure
  (`max_depth - depth` for `build_recursively`, the shrinking scan
  window for `std::partition`, the strictly-decreasing loop index for
  `shuffle`); each model reifies that measure as an explicit fuel
  argument so that the kernel can evaluate the definitions, and each
  wrapper instantiates the fuel with the measure's initial value;
* `IForest::shuffle` on an empty buffer performs `rand() % 0` (the
  unsigned expression `i + 1` wraps to zero) which is undefined
  behaviour in C++; the model returns `none` in that situation, so
  `IForest::build` is `Option`-valued.
-/

namespace IsolationForest

/-- `Implementation::INode<T, I>`: split value plus two child indices;
`-1` (any negative value) means "no child". -/
structure INode (α : Type) where
  split_value : α
  left : ℤ := -1
  right : ℤ := -1
  deriving DecidableEq

/-- The C++ default-constructed node `node_type{}`:
`split_value{} = 0`, `left = right = -1`. -/
instance instInhabitedINode {α : Type} [Zero α] : Inhabited (INode α) :=
  ⟨{ split_value := 0 }⟩

/-- `Implementation::ITree`: a flat node collection plus the configured
maximal depth (`max_depth` is `size_type` in C++ but always nonnegative
in every reachable construction, so it is modelled as `ℕ`). -/
structure ITree (α : Type) where
  tree : List (INode α) := []
  max_depth : ℕ

/-- `Implementation::IForest`: the owned ensemble of trees. -/
structure IForest (α : Type) where
  trees : List (ITree α)

variable {α : Type} [LinearOrderedField α]

/-- `std::iter_swap(v.begin() + i, v.begin() + j)` on a buffer modelled
as a list (reads both cells, then writes both). -/
def listSwap (l : List α) (i j : ℕ) : List α :=
  (l.set i (l.getD j 0)).set j (l.getD i 0)

/-- Scan-swap `std::partition` loop for random-access iterators (the
algorithm used by libstdc++ and libc++), over the window
`[first, last)` of `data`, with the predicate `v < data[ai]`.

Crucial faithfulness point: the C++ code captures the anchor as
`const value_type& anchor{ data[anchor_index] }`, a reference INTO the
array being permuted, so every comparison re-reads the current content
of cell `ai`.  The model does exactly that.

`phase = false` is the left-to-right scan (`last` is the exclusive
bound, the current `__last` iterator); `phase = true` is the
right-to-left scan (`last` is the inclusive candidate index after the
`--__last` step).  The C++ loop tests `first == last`; under the loop
invariant `first ≤ last` this equals the `first ≥ last` test used
here, which also makes the measure argument uniform.  The fuel reifies
the measure `2*(last - first) + phase` and is instantiated by
`stdPartition` with a strict upper bound, so the fuel-0 branch is
never reached from the wrapper. -/
def partitionLoop : ℕ → List α → ℕ → ℕ → ℕ → Bool → List α × ℕ
  | 0, data, _, first, _, _ => (data, first)
  | fuel + 1, data, ai, first, last, false =>
    if first ≥ last then (data, first)
    else if data.getD first 0 < data.getD ai 0 then
      partitionLoop fuel data ai (first + 1) last false
    else
      partitionLoop fuel data ai first (last - 1) true
  | fuel + 1, data, ai, first, last, true =>
    if first ≥ last then (data, first)
    else if ¬ (data.getD last 0 < data.getD ai 0) then
      partitionLoop fuel data ai first (last - 1) true
    else
      partitionLoop fuel (listSwap data first last) ai (first + 1) last false

/-- `std::partition(data.begin() + left, data.begin() + right, pred)`
with `pred v = (v < data[ai])` (anchor read through the live cell
`ai`), returning the permuted buffer and the absolute partition-point
index `mid = std::distance(data.begin(), anchor_iter)`. -/
def stdPartition (data : List α) (ai first last : ℕ) : List α × ℕ :=
  partitionLoop (2 * (last - first) + 2) data ai first last false

/-- `ITree::build_recursively`, state-passing form.  Arguments after
the fuel: `max_depth`, the rand stream, the working buffer `data`, the
node collection `this->tree`, the range bounds `left`/`right`, the
recursion `depth`, and the rand-call counter `k`.  Returns the new
buffer, the new node collection and the new counter; the C++ return
value `root_id()` is the index of the node just appended, i.e.
`size - 1` of the returned collection.

The order of effects mirrors the C++ exactly: partition, then read the
split value through the (possibly moved-from) anchor cell, then build
the left subtree on `[left, mid)`, then the right subtree on
`[mid, right)`, then append the internal node.  The fuel reifies the
measure `max_depth - depth + 1`; the fuel-0 branch coincides with the
terminal branch and is unreachable from `ITree.build`. -/
def build_recursively :
    ℕ → ℕ → (ℕ → ℕ) → List α → List (INode α) → ℕ → ℕ → ℕ → ℕ →
      List α × List (INode α) × ℕ
  | 0, _, _, data, tree, _, _, _, k => (data, tree ++ [default], k)
  | fuel + 1, md, rands, data, tree, left, right, depth, k =>
    if left ≥ right ∨ depth ≥ md ∨ right = 0 then
      (data, tree ++ [default], k)
    else
      let anchor_index := left + rands k % (right - left)
      let pr := stdPartition data anchor_index left right
      let split := pr.1.getD anchor_index 0
      let rl := build_recursively fuel md rands pr.1 tree left pr.2 (depth + 1) (k + 1)
      let leftI : ℤ := (rl.2.1.length : ℤ) - 1
      let rr := build_recursively fuel md rands rl.1 rl.2.1 pr.2 right (depth + 1) rl.2.2
      let rightI : ℤ := (rr.2.1.length : ℤ) - 1
      (rr.1, rr.2.1 ++ [⟨split, leftI, rightI⟩], rr.2.2)

/-- `ITree::root_id()`: `static_cast<size_type>(tree.size() - 1)`.
For a nonempty collection this is `size - 1`; for an empty collection
the `size_t` wrap followed by the cast to `int64_t` yields `-1`, which
`(length : ℤ) - 1` also does. -/
def root_id (tl : List (INode α)) : ℤ :=
  (tl.length : ℤ) - 1

/-- `ITree::build(first, last)`: copies the caller's range into an
owned working buffer (`std::vector<value_type> data(first, last)`) and
runs `build_recursively` over `[0, length)` at depth 0.  The result
carries the updated tree, the caller's sequence after the call (the
copy absorbs all mutation, so it is `input` itself) and the rand
counter. -/
def ITree.build (t : ITree α) (input : List α) (rands : ℕ → ℕ) (k : ℕ) :
    ITree α × List α × ℕ :=
  let data := input
  let r := build_recursively (t.max_depth + 1) t.max_depth rands data t.tree 0
    input.length 0 k
  ({ t with tree := r.2.1 }, input, r.2.2)

/-- The node collection of a freshly constructed tree
(`ITree(max_depth)`, empty collection) after one `build` call. -/
def builtTree (md : ℕ) (input : List α) (rands : ℕ → ℕ) (k : ℕ) :
    List (INode α) :=
  (ITree.build ⟨[], md⟩ input rands k).1.tree

/-- `ITree::path_length(value, node_index, node_depth)` with explicit
fuel (the recursion is well defined on the trees `build` produces,
whose child indices strictly decrease; the wrapper `path_length`
supplies fuel `tree.length`, which suffices for those trees).
Negative or out-of-range indices read the default node, mirroring
nothing in particular: the C++ would be out-of-bounds there, and no
theorem below exercises that case. -/
def path_lengthFuel : ℕ → List (INode α) → α → ℤ → ℤ → α
  | 0, _, _, _, node_depth => ((node_depth - 1 : ℤ) : α)
  | fuel + 1, tl, value, node_index, node_depth =>
    let node := tl.getD node_index.toNat default
    if node.left ≥ 0 ∨ node.right ≥ 0 then
      if value < node.split_value ∧ node.left ≥ 0 then
        path_lengthFuel fuel tl value node.left (node_depth + 1)
      else if node.right ≥ 0 then
        path_lengthFuel fuel tl value node.right (node_depth + 1)
      else ((node_depth - 1 : ℤ) : α)
    else ((node_depth - 1 : ℤ) : α)

/-- `ITree::path_length` on a tree's node collection. -/
def path_length (tl : List (INode α)) (value : α) (node_index node_depth : ℤ) : α :=
  path_lengthFuel tl.length tl value node_index node_depth

/-- Instrumentation of `path_length`: the list of `node_index`
arguments of the successive recursive calls (the indices the descent
reaches), in order.  Follows exactly the branch structure of
`path_lengthFuel`. -/
def pathTraceFuel : ℕ → List (INode α) → α → ℤ → List ℤ
  | 0, _, _, node_index => [node_index]
  | fuel + 1, tl, value, node_index =>
    let node := tl.getD node_index.toNat default
    if node.left ≥ 0 ∨ node.right ≥ 0 then
      if value < node.split_value ∧ node.left ≥ 0 then
        node_index :: pathTraceFuel fuel tl value node.left
      else if node.right ≥ 0 then
        node_index :: pathTraceFuel fuel tl value node.right
      else [node_index]
    else [node_index]

/-- The indices reached by `path_length tl value node_index _`. -/
def pathTrace (tl : List (INode α)) (value : α) (node_index : ℤ) : List ℤ :=
  pathTraceFuel tl.length tl value node_index

/-- The Fisher–Yates loop of `IForest::shuffle`, descending loop index
`i` (of C++ type `std::size_t`).  Each iteration computes
`rand() % (i + 1)` where `i + 1` is evaluated in `std::size_t`, i.e.
modulo `2^64`; if that divisor is zero (which happens exactly when the
wrap of `vec.size() - 1` produced `2^64 - 1`), the C++ divides by zero
— undefined behaviour — and the model returns `none`. -/
def shuffleLoop (rands : ℕ → ℕ) : List α → ℕ → ℕ → Option (List α × ℕ)
  | vec, k, 0 => some (vec, k)
  | vec, k, i + 1 =>
    let m := (i + 1 + 1) % 2 ^ 64
    if m = 0 then none
    else shuffleLoop rands (listSwap vec (i + 1) (rands k % m)) (k + 1) i

/-- `IForest::shuffle(vec)`: the loop starts at
`i = vec.size() - 1` computed in `std::size_t`, i.e. modulo `2^64`
(for an empty vector this wraps to `2^64 - 1`). -/
def shuffle (rands : ℕ → ℕ) (vec : List α) (k : ℕ) : Option (List α × ℕ) :=
  shuffleLoop rands vec k ((vec.length + 2 ^ 64 - 1) % 2 ^ 64)

/-- `IForest(num_trees, max_depth)`: `num_trees` trees, each freshly
constructed with the shared `max_depth` and an empty node collection. -/
def mkForest (num_trees md : ℕ) : IForest α :=
  ⟨List.replicate num_trees ⟨[], md⟩⟩

/-- The per-tree loop body of `IForest::build`: shuffle the shared
working buffer in place, then build the current tree from it.  The
buffer state persists from one tree to the next. -/
def forestGo (rands : ℕ → ℕ) :
    List (ITree α) → List α → ℕ → Option (List (ITree α) × List α × ℕ)
  | [], data, k => some ([], data, k)
  | t :: rest, data, k =>
    match shuffle rands data k with
    | none => none
    | some (d1, k1) =>
      let tb := ITree.build t d1 rands k1
      match forestGo rands rest d1 tb.2.2 with
      | none => none
      | some (ts, dFin, kFin) => some (tb.1 :: ts, dFin, kFin)

/-- `IForest::build(first, last)`: copy the caller's range once into
an owned working buffer, then shuffle-and-build every tree in order.
Returns the rebuilt forest, the caller's sequence after the call
(unchanged: all mutation happens in the copy) and the rand counter;
`none` models the undefined behaviour `shuffle` reaches on an empty
buffer. -/
def IForest.build (f : IForest α) (input : List α) (rands : ℕ → ℕ) (k : ℕ) :
    Option (IForest α × List α × ℕ) :=
  let data := input
  match forestGo rands f.trees data k with
  | none => none
  | some (ts, _, kFin) => some (⟨ts⟩, input, kFin)

/-- `IForest::calc_depth(size)`: `0` for `size <= 1`, otherwise the
harmonic-number approximation
`2*(log(size-1) + 0.5772156649) - 2*(size-1)/size`, with `size - 1`
computed in the integer type and then cast, exactly as the C++ does. -/
noncomputable def calc_depth (n : ℕ) : ℝ :=
  if n ≤ 1 then 0
  else 2 * (Real.log ((n - 1 : ℕ) : ℝ) + 0.5772156649) -
    2 * ((n - 1 : ℕ) : ℝ) / (n : ℝ)

/-- `IForest::score(value, size)`: accumulate
`tree.path_length(value, tree.root_id(), 0)` over all trees, divide by
the tree count, and return `2` raised to `avg / calc_depth(size)`
(real exponentiation models `std::pow`). -/
noncomputable def IForest.score (f : IForest ℝ) (value : ℝ) (n : ℕ) : ℝ :=
  let avg_path_len :=
    f.trees.foldl (fun acc t => acc + path_length t.tree value (root_id t.tree) 0) 0
  let avg := avg_path_len / (f.trees.length : ℝ)
  (2 : ℝ) ^ (avg / calc_depth n)

/-- `IForest::score` as a member call on the object state: the method
body contains no write to any member and no call to the random source,
so its translation returns the result together with the unchanged
object. -/
noncomputable def scoreM (f : IForest ℝ) (value : ℝ) (n : ℕ) : ℝ × IForest ℝ :=
  (f.score value n, f)

/-- Structural invariant of a node collection: every node is either a
leaf (`left < 0 ∧ right < 0`) or an internal node whose two child
indices are valid strictly earlier positions. -/
def WellFormed (tl : List (INode α)) : Prop :=
  ∀ i, i < tl.length →
    ((tl.getD i default).left < 0 ∧ (tl.getD i default).right < 0) ∨
    (0 ≤ (tl.getD i default).left ∧ (tl.getD i default).left < (i : ℤ) ∧
     0 ≤ (tl.getD i default).right ∧ (tl.getD i default).right < (i : ℤ))

/-- `GoodNode tl md idx d`: node `idx` of `tl` roots a subtree that
`build_recursively` could have produced at recursion depth `d` under
depth cap `md`: it is a leaf, or an internal node created at depth
`d < md` whose two children sit at strictly earlier indices and are
good at depth `d + 1`. -/
inductive GoodNode (tl : List (INode α)) (md : ℕ) : ℕ → ℕ → Prop
  | leaf (idx d : ℕ) (hlen : idx < tl.length)
      (hl : (tl.getD idx default).left < 0)
      (hr : (tl.getD idx default).right < 0) : GoodNode tl md idx d
  | node (idx d : ℕ) (hlen : idx < tl.length) (hd : d < md)
      (hl0 : 0 ≤ (tl.getD idx default).left)
      (hl : (tl.getD idx default).left.toNat < idx)
      (hr0 : 0 ≤ (tl.getD idx default).right)
      (hr : (tl.getD idx default).right.toNat < idx)
      (hgl : GoodNode tl md (tl.getD idx default).left.toNat (d + 1))
      (hgr : GoodNode tl md (tl.getD idx default).right.toNat (d + 1)) :
      GoodNode tl md idx d

end IsolationForest

namespace IsolationForest

variable {α : Type} [LinearOrderedField α]



lemma default_left : (default : INode α).left = -1 := rfl

lemma default_right : (default : INode α).right = -1 := rfl

/-- `getD` is stable under extending the list on the right. -/
lemma getD_of_prefix {tl tl' : List (INode α)} (h : tl <+: tl') {i : ℕ}
    (hi : i < tl.length) : tl'.getD i default = tl.getD i default := by
  obtain ⟨u, rfl⟩ := h
  exact List.getD_append _ _ _ _ hi

/-- Appending a node that is a leaf or points strictly below the old
length preserves `WellFormed`. -/
lemma WellFormed.append_node {tl : List (INode α)} (h : WellFormed tl) (nd : INode α)
    (hnd : (nd.left < 0 ∧ nd.right < 0) ∨
      (0 ≤ nd.left ∧ nd.left < (tl.length : ℤ) ∧
       0 ≤ nd.right ∧ nd.right < (tl.length : ℤ))) :
    WellFormed (tl ++ [nd]) := by
  intro i hi
  simp only [List.length_append, List.length_singleton] at hi
  rcases lt_or_ge i tl.length with hlt | hge
  · rw [List.getD_append _ _ _ _ hlt]
    exact h i hlt
  · have hi' : i = tl.length := by omega
    subst hi'
    rw [List.getD_append_right _ _ _ _ hge]
    simpa using hnd

/-- `GoodNode` is stable under appending nodes at the end. -/
lemma GoodNode.append {tl : List (INode α)} {md idx d : ℕ}
    (h : GoodNode tl md idx d) (u : List (INode α)) :
    GoodNode (tl ++ u) md idx d := by
  induction h with
  | leaf idx d hlen hl hr =>
    refine GoodNode.leaf idx d (by simp; omega) ?_ ?_ <;>
      rw [List.getD_append _ _ _ _ hlen]
    · exact hl
    · exact hr
  | node idx d hlen hd hl0 hl hr0 hr hgl hgr ihl ihr =>
    refine GoodNode.node idx d (by simp; omega) hd ?_ ?_ ?_ ?_ ?_ ?_ <;>
      rw [List.getD_append _ _ _ _ hlen]
    · exact hl0
    · exact hl
    · exact hr0
    · exact hr
    · exact ihl
    · exact ihr

/-- `GoodNode` is stable under extending the list on the right. -/
lemma GoodNode.of_prefix {tl tl' : List (INode α)} {md idx d : ℕ}
    (h : GoodNode tl md idx d) (hp : tl <+: tl') : GoodNode tl' md idx d := by
  obtain ⟨u, rfl⟩ := hp
  exact h.append u

/-- Unfolding of `build_recursively` in the recursive case. -/
lemma build_recursively_succ_neg {fuel md : ℕ} {rands : ℕ → ℕ}
    {data : List α} {tree : List (INode α)} {left right depth k : ℕ}
    (h : ¬ (left ≥ right ∨ depth ≥ md ∨ right = 0)) :
    build_recursively (fuel + 1) md rands data tree left right depth k =
      (let anchor_index := left + rands k % (right - left)
       let pr := stdPartition data anchor_index left right
       let rl := build_recursively fuel md rands pr.1 tree left pr.2 (depth + 1) (k + 1)
       let rr := build_recursively fuel md rands rl.1 rl.2.1 pr.2 right (depth + 1) rl.2.2
       (rr.1, rr.2.1 ++ [⟨pr.1.getD anchor_index 0, (rl.2.1.length : ℤ) - 1,
        (rr.2.1.length : ℤ) - 1⟩], rr.2.2)) := by
  simp only [build_recursively]
  rw [if_neg h]

/-- The two terminal branches of `build_recursively` append a single
default leaf; this packages the resulting facts. -/
lemma leafCase_spec (tree : List (INode α)) (md depth : ℕ) :
    tree <+: tree ++ [default] ∧
    tree.length < (tree ++ [(default : INode α)]).length ∧
    (WellFormed tree → WellFormed (tree ++ [default])) ∧
    GoodNode (tree ++ [(default : INode α)]) md
      ((tree ++ [(default : INode α)]).length - 1) depth := by
  refine ⟨List.prefix_append _ _, by simp, ?_, ?_⟩
  · intro hwf
    exact hwf.append_node default (Or.inl ⟨by simp [default_left], by simp [default_right]⟩)
  · have hix : (tree ++ [(default : INode α)]).length - 1 = tree.length := by simp
    rw [hix]
    refine GoodNode.leaf tree.length depth (by simp) ?_ ?_ <;>
      rw [List.getD_append_right _ _ _ _ (le_refl _)] <;>
      simp [default_left, default_right]

/-- Main structural specification of `build_recursively`: it strictly
extends the node collection, preserves `WellFormed`, the last appended
node roots a good subtree at the current depth, and in the
partitioning case at least three nodes are appended and the new root
is internal (both children present). -/
lemma buildRec_spec (md : ℕ) (rands : ℕ → ℕ) :
    ∀ (fuel : ℕ) (data : List α) (tree : List (INode α)) (left right depth k : ℕ),
      tree <+: (build_recursively fuel md rands data tree left right depth k).2.1 ∧
      tree.length < (build_recursively fuel md rands data tree left right depth k).2.1.length ∧
      (WellFormed tree →
        WellFormed (build_recursively fuel md rands data tree left right depth k).2.1) ∧
      GoodNode (build_recursively fuel md rands data tree left right depth k).2.1 md
        ((build_recursively fuel md rands data tree left right depth k).2.1.length - 1)
        depth ∧
      (¬ (left ≥ right ∨ depth ≥ md ∨ right = 0) → 0 < fuel →
        tree.length + 3 ≤
          (build_recursively fuel md rands data tree left right depth k).2.1.length ∧
        0 ≤ ((build_recursively fuel md rands data tree left right depth k).2.1.getD
          ((build_recursively fuel md rands data tree left right depth k).2.1.length - 1)
            default).left ∧
        0 ≤ ((build_recursively fuel md rands data tree left right depth k).2.1.getD
          ((build_recursively fuel md rands data tree left right depth k).2.1.length - 1)
            default).right) := by
  intro fuel
  induction fuel with
  | zero =>
    intro data tree left right depth k
    obtain ⟨h1, h2, h3, h4⟩ := leafCase_spec (α := α) tree md depth
    exact ⟨h1, h2, h3, h4, by intro _ h; omega⟩
  | succ fuel ih =>
    intro data tree left right depth k
    by_cases hg : left ≥ right ∨ depth ≥ md ∨ right = 0
    · have hunf : build_recursively (fuel + 1) md rands data tree left right depth k =
          (data, tree ++ [default], k) := by
        simp only [build_recursively]
        rw [if_pos hg]
      rw [hunf]
      obtain ⟨h1, h2, h3, h4⟩ := leafCase_spec (α := α) tree md depth
      exact ⟨h1, h2, h3, h4, fun hng => absurd hg hng⟩
    · rw [build_recursively_succ_neg hg]
      simp only []
      set ai := left + rands k % (right - left) with hai
      set pr := stdPartition data ai left right with hpr
      set rl := build_recursively fuel md rands pr.1 tree left pr.2 (depth + 1) (k + 1)
        with hrl
      obtain ⟨hp₁, hl₁, hwf₁, hg₁, -⟩ := ih pr.1 tree left pr.2 (depth + 1) (k + 1)
      rw [← hrl] at hp₁ hl₁ hwf₁ hg₁
      set rr := build_recursively fuel md rands rl.1 rl.2.1 pr.2 right (depth + 1) rl.2.2
        with hrr
      obtain ⟨hp₂, hl₂, hwf₂, hg₂, -⟩ := ih rl.1 rl.2.1 pr.2 right (depth + 1) rl.2.2
      rw [← hrr] at hp₂ hl₂ hwf₂ hg₂
      have hdlt : depth < md := by omega
      set node : INode α :=
        ⟨pr.1.getD ai 0, (rl.2.1.length : ℤ) - 1, (rr.2.1.length : ℤ) - 1⟩ with hnode
      have hL1 : 1 ≤ rl.2.1.length := by omega
      have hLR : rl.2.1.length ≤ rr.2.1.length := le_of_lt hl₂
      have hgetnode : (rr.2.1 ++ [node]).getD rr.2.1.length default = node := by
        rw [List.getD_append_right _ _ _ _ (le_refl _)]
        simp
      have hixF : (rr.2.1 ++ [node]).length - 1 = rr.2.1.length := by simp
      refine ⟨?_, ?_, ?_, ?_, ?_⟩
      · exact (hp₁.trans hp₂).trans (List.prefix_append _ _)
      · simp; omega
      · intro hwf
        refine (hwf₂ (hwf₁ hwf)).append_node node ?_
        right
        rw [hnode]
        refine ⟨by simp; omega, by simp; omega, by simp; omega, by simp⟩
      · rw [hixF]
        have htoL : ((rl.2.1.length : ℤ) - 1).toNat = rl.2.1.length - 1 := by omega
        have htoR : ((rr.2.1.length : ℤ) - 1).toNat = rr.2.1.length - 1 := by omega
        refine GoodNode.node rr.2.1.length depth (by simp) hdlt ?_ ?_ ?_ ?_ ?_ ?_ <;>
          rw [hgetnode, hnode]
        · simp; omega
        · simp only [htoL]; omega
        · simp; omega
        · simp only [htoR]; omega
        · simp only [htoL]
          exact hg₁.of_prefix (hp₂.trans (List.prefix_append _ _))
        · simp only [htoR]
          exact hg₂.of_prefix (List.prefix_append _ _)
      · intro _ _
        rw [hixF]
        refine ⟨by simp; omega, ?_, ?_⟩ <;> rw [hgetnode, hnode]
        · simp; omega
        · simp; omega




/-- Descending from a good node terminates at a leaf whose depth is
between the current depth and the depth cap; the returned path length
is that leaf depth minus one, and when the node is internal (both
children present) the leaf lies strictly deeper. -/
lemma pathLen_spec {tl : List (INode α)} {md : ℕ} :
    ∀ {idx d : ℕ}, GoodNode tl md idx d → ∀ (v : α) (fuel : ℕ), idx < fuel →
      ∃ dL : ℕ, d ≤ dL ∧ dL ≤ max d md ∧
        path_lengthFuel fuel tl v (idx : ℤ) (d : ℤ) = (((dL : ℤ) - 1 : ℤ) : α) ∧
        (0 ≤ (tl.getD idx default).left ∧ 0 ≤ (tl.getD idx default).right → d < dL) := by
  intro idx d h
  induction h with
  | leaf idx d hlen hl hr =>
    intro v fuel hfuel
    obtain ⟨f, rfl⟩ : ∃ f, fuel = f + 1 := ⟨fuel - 1, by omega⟩
    refine ⟨d, le_refl d, le_max_left _ _, ?_, ?_⟩
    · simp only [path_lengthFuel, Int.toNat_natCast]
      rw [if_neg (by omega)]
    · intro hc
      exact absurd hc.1 (by omega)
  | node idx d hlen hd hl0 hl hr0 hr hgl hgr ihl ihr =>
    intro v fuel hfuel
    obtain ⟨f, rfl⟩ : ∃ f, fuel = f + 1 := ⟨fuel - 1, by omega⟩
    have hcast : ((d : ℤ) + 1) = ((d + 1 : ℕ) : ℤ) := by push_cast; ring
    by_cases hv : v < (tl.getD idx default).split_value
    · -- descend left
      obtain ⟨dL, h1, h2, h3, -⟩ := ihl v f (by omega)
      refine ⟨dL, by omega, by omega, ?_, fun _ => by omega⟩
      simp only [path_lengthFuel, Int.toNat_natCast]
      rw [if_pos (Or.inl hl0), if_pos ⟨hv, hl0⟩, hcast,
        ← Int.toNat_of_nonneg hl0]
      exact h3
    · -- descend right
      obtain ⟨dL, h1, h2, h3, -⟩ := ihr v f (by omega)
      refine ⟨dL, by omega, by omega, ?_, fun _ => by omega⟩
      simp only [path_lengthFuel, Int.toNat_natCast]
      rw [if_pos (Or.inl hl0), if_neg (by tauto), if_pos hr0, hcast,
        ← Int.toNat_of_nonneg hr0]
      exact h3

/-- Every index the descent reaches from a good node is a valid index
of the collection. -/
lemma pathTrace_spec {tl : List (INode α)} {md : ℕ} :
    ∀ {idx d : ℕ}, GoodNode tl md idx d → ∀ (v : α) (fuel : ℕ), idx < fuel →
      ∀ j ∈ pathTraceFuel fuel tl v (idx : ℤ), 0 ≤ j ∧ j < (tl.length : ℤ) := by
  intro idx d h
  induction h with
  | leaf idx d hlen hl hr =>
    intro v fuel hfuel j hj
    obtain ⟨f, rfl⟩ : ∃ f, fuel = f + 1 := ⟨fuel - 1, by omega⟩
    simp only [pathTraceFuel, Int.toNat_natCast] at hj
    rw [if_neg (by omega)] at hj
    simp at hj
    subst hj
    constructor <;> [positivity; exact_mod_cast hlen]
  | node idx d hlen hd hl0 hl hr0 hr hgl hgr ihl ihr =>
    intro v fuel hfuel j hj
    obtain ⟨f, rfl⟩ : ∃ f, fuel = f + 1 := ⟨fuel - 1, by omega⟩
    simp only [pathTraceFuel, Int.toNat_natCast] at hj
    rw [if_pos (Or.inl hl0)] at hj
    by_cases hv : v < (tl.getD idx default).split_value
    · rw [if_pos ⟨hv, hl0⟩] at hj
      rcases List.mem_cons.mp hj with rfl | hj'
      · constructor <;> [positivity; exact_mod_cast hlen]
      · rw [← Int.toNat_of_nonneg hl0] at hj'
        exact ihl v f (by omega) j hj'
    · rw [if_neg (by tauto), if_pos hr0] at hj
      rcases List.mem_cons.mp hj with rfl | hj'
      · constructor <;> [positivity; exact_mod_cast hlen]
      · rw [← Int.toNat_of_nonneg hr0] at hj'
        exact ihr v f (by omega) j hj'

/-- On a `WellFormed` collection the result of `path_lengthFuel` does
not depend on the fuel, as long as the fuel exceeds the start index
(child indices strictly decrease, so the recursion depth is bounded by
the index). -/
lemma pathLenFuel_congr {tl : List (INode α)} (hwf : WellFormed tl) :
    ∀ (i : ℕ), i < tl.length →
      ∀ (fuel₁ fuel₂ : ℕ), i < fuel₁ → i < fuel₂ → ∀ (v : α) (dq : ℤ),
        path_lengthFuel fuel₁ tl v (i : ℤ) dq = path_lengthFuel fuel₂ tl v (i : ℤ) dq := by
  intro i
  induction i using Nat.strong_induction_on with
  | _ i ihi =>
    intro hlen fuel₁ fuel₂ hf₁ hf₂ v dq
    obtain ⟨f₁, rfl⟩ : ∃ f, fuel₁ = f + 1 := ⟨fuel₁ - 1, by omega⟩
    obtain ⟨f₂, rfl⟩ : ∃ f, fuel₂ = f + 1 := ⟨fuel₂ - 1, by omega⟩
    simp only [path_lengthFuel, Int.toNat_natCast]
    by_cases ho : 0 ≤ (tl.getD i default).left ∨ 0 ≤ (tl.getD i default).right
    · rw [if_pos ho, if_pos ho]
      by_cases hvl : v < (tl.getD i default).split_value ∧ 0 ≤ (tl.getD i default).left
      · rw [if_pos hvl, if_pos hvl]
        have hchild : (tl.getD i default).left < (i : ℤ) := by
          rcases hwf i hlen with hleaf | hint
          · exact absurd hvl.2 (by omega)
          · exact hint.2.1
        rw [← Int.toNat_of_nonneg hvl.2]
        have hlt : (tl.getD i default).left.toNat < i := by omega
        exact ihi _ hlt (by omega) _ _ (by omega) (by omega) v (dq + 1)
      · rw [if_neg hvl, if_neg hvl]
        by_cases hvr : 0 ≤ (tl.getD i default).right
        · rw [if_pos hvr, if_pos hvr]
          have hchild : (tl.getD i default).right < (i : ℤ) := by
            rcases hwf i hlen with hleaf | hint
            · exact absurd hvr (by omega)
            · exact hint.2.2.2
          rw [← Int.toNat_of_nonneg hvr]
          have hlt : (tl.getD i default).right.toNat < i := by omega
          exact ihi _ hlt (by omega) _ _ (by omega) (by omega) v (dq + 1)
        · rw [if_neg hvr, if_neg hvr]
    · rw [if_neg ho, if_neg ho]




/-- Specification of a fresh `ITree(max_depth)` after one `build`. -/
lemma builtTree_spec (md : ℕ) (input : List α) (rands : ℕ → ℕ) (k : ℕ) :
    1 ≤ (builtTree md input rands k).length ∧
    WellFormed (builtTree md input rands k) ∧
    GoodNode (builtTree md input rands k) md ((builtTree md input rands k).length - 1) 0 ∧
    (input ≠ [] → 1 ≤ md →
      3 ≤ (builtTree md input rands k).length ∧
      0 ≤ ((builtTree md input rands k).getD ((builtTree md input rands k).length - 1)
        default).left ∧
      0 ≤ ((builtTree md input rands k).getD ((builtTree md input rands k).length - 1)
        default).right) := by
  have hdef : builtTree md input rands k =
      (build_recursively (md + 1) md rands input [] 0 input.length 0 k).2.1 := rfl
  obtain ⟨hp, hlen, hwf, hgood, hint⟩ :=
    buildRec_spec md rands (md + 1) input ([] : List (INode α)) 0 input.length 0 k
  rw [hdef]
  refine ⟨by simpa using hlen, hwf ?_, hgood, ?_⟩
  · intro i hi
    exact absurd hi (by simp)
  · intro hne hmd
    have hpos : 0 < input.length := List.length_pos.mpr hne
    have := hint (by omega) (by omega)
    exact ⟨by omega, this.2.1, this.2.2⟩



/-- C2: every tree `build` produces has at least one node, its root is
the last-appended node (`root_id = size - 1`), and every node is
either a leaf (`left < 0 ∧ right < 0`) or an internal node whose two
child indices are valid strictly earlier positions (so following
children strictly decreases the index and no cycles exist). -/
theorem c2_build_invariants {α : Type} [LinearOrderedField α] (md : ℕ) (input : List α)
    (rands : ℕ → ℕ) (k : ℕ) :
    1 ≤ (builtTree md input rands k).length ∧
    root_id (builtTree md input rands k) = ((builtTree md input rands k).length : ℤ) - 1 ∧
    WellFormed (builtTree md input rands k) := by
  obtain ⟨h1, h2, -, -⟩ := builtTree_spec md input rands k
  exact ⟨h1, rfl, h2⟩

/-- C6 (amended): on a tree built from a NONEMPTY sequence with
`max_depth ≥ 1`, the root path length is between `0` and `max_depth`
for every query value. -/
theorem c6_path_length_bounds {α : Type} [LinearOrderedField α] (md : ℕ) (input : List α)
    (rands : ℕ → ℕ) (k : ℕ) (v : α) (hne : input ≠ []) (hmd : 1 ≤ md) :
    0 ≤ path_length (builtTree md input rands k) v
      (root_id (builtTree md input rands k)) 0 ∧
    path_length (builtTree md input rands k) v
      (root_id (builtTree md input rands k)) 0 ≤ (md : α) := by
  obtain ⟨h1, hwf, hgood, hint⟩ := builtTree_spec md input rands k
  obtain ⟨h3, hil, hir⟩ := hint hne hmd
  set T := builtTree md input rands k with hT
  have hroot : root_id T = ((T.length - 1 : ℕ) : ℤ) := by
    rw [root_id]; omega
  have hzero : (0 : ℤ) = ((0 : ℕ) : ℤ) := rfl
  obtain ⟨dL, hd1, hd2, hd3, hd4⟩ :=
    pathLen_spec hgood v T.length (by omega)
  have hdpos : 0 < dL := hd4 ⟨hil, hir⟩
  have hdle : dL ≤ md := by
    have : max 0 md = md := by omega
    omega
  rw [path_length, hroot, hzero] at *
  rw [hd3]
  constructor
  · have : (0 : ℤ) ≤ (dL : ℤ) - 1 := by omega
    exact_mod_cast Int.cast_nonneg.mpr this
  · have : ((dL : ℤ) - 1 : ℤ) ≤ (md : ℤ) := by omega
    calc (((dL : ℤ) - 1 : ℤ) : α) ≤ ((md : ℤ) : α) := by exact_mod_cast Int.cast_le.mpr this
      _ = (md : α) := by push_cast; ring

/-- C5 (amended): on a tree built from a nonempty sequence with
`max_depth ≥ 1`, the root index is strictly positive and every index
the descent reaches is a valid (in-bounds, nonnegative) index — but
not necessarily strictly positive, see the counterexample. -/
theorem c5_reached_indices {α : Type} [LinearOrderedField α] (md : ℕ) (input : List α)
    (rands : ℕ → ℕ) (k : ℕ) (v : α) (hne : input ≠ []) (hmd : 1 ≤ md) :
    0 < root_id (builtTree md input rands k) ∧
    ∀ j ∈ pathTrace (builtTree md input rands k) v
        (root_id (builtTree md input rands k)),
      0 ≤ j ∧ j < ((builtTree md input rands k).length : ℤ) := by
  obtain ⟨h1, hwf, hgood, hint⟩ := builtTree_spec md input rands k
  obtain ⟨h3, -, -⟩ := hint hne hmd
  set T := builtTree md input rands k with hT
  have hroot : root_id T = ((T.length - 1 : ℕ) : ℤ) := by
    rw [root_id]; omega
  refine ⟨by rw [root_id]; omega, ?_⟩
  rw [pathTrace, hroot]
  exact pathTrace_spec hgood v T.length (by omega)



/-- C3: on a well-formed collection, `path_length` at a valid index
descends left with `depth + 1` exactly when `value < split_value` and
the left child exists, otherwise descends right with `depth + 1` when
a right child exists; at a leaf or when no eligible child exists it
returns `depth - 1` cast to the value type, so a tree whose root is a
leaf yields `path_length value root_id 0 = -1`. -/
theorem c3_path_length_step {α : Type} [LinearOrderedField α] (tl : List (INode α))
    (hwf : WellFormed tl) :
    (∀ (v : α) (i : ℕ), i < tl.length → ∀ d : ℤ,
      (0 ≤ (tl.getD i default).left → v < (tl.getD i default).split_value →
        path_length tl v (i : ℤ) d = path_length tl v (tl.getD i default).left (d + 1)) ∧
      (¬ (v < (tl.getD i default).split_value ∧ 0 ≤ (tl.getD i default).left) →
        0 ≤ (tl.getD i default).right →
        path_length tl v (i : ℤ) d = path_length tl v (tl.getD i default).right (d + 1)) ∧
      ((((tl.getD i default).left < 0 ∧ (tl.getD i default).right < 0) ∨
        (¬ (v < (tl.getD i default).split_value ∧ 0 ≤ (tl.getD i default).left) ∧
          (tl.getD i default).right < 0)) →
        path_length tl v (i : ℤ) d = ((d - 1 : ℤ) : α))) ∧
    (∀ v : α, tl ≠ [] →
      (tl.getD (tl.length - 1) default).left < 0 →
      (tl.getD (tl.length - 1) default).right < 0 →
      path_length tl v (root_id tl) 0 = (-1 : α)) := by
  constructor
  · intro v i hi d
    obtain ⟨m, hm⟩ : ∃ m, tl.length = m + 1 := ⟨tl.length - 1, by omega⟩
    refine ⟨?_, ?_, ?_⟩
    · intro h0 hv
      have hchild : (tl.getD i default).left < (i : ℤ) := by
        rcases hwf i hi with hleaf | hint
        · exact absurd h0 (by omega)
        · exact hint.2.1
      simp only [path_length, hm]
      conv_lhs => rw [path_lengthFuel]
      simp only [Int.toNat_natCast]
      rw [if_pos (Or.inl h0), if_pos ⟨hv, h0⟩]
      rw [← Int.toNat_of_nonneg h0]
      exact pathLenFuel_congr hwf _ (by omega) m (m + 1) (by omega) (by omega) v (d + 1)
    · intro hno hr
      have hchild : (tl.getD i default).right < (i : ℤ) := by
        rcases hwf i hi with hleaf | hint
        · exact absurd hr (by omega)
        · exact hint.2.2.2
      simp only [path_length, hm]
      conv_lhs => rw [path_lengthFuel]
      simp only [Int.toNat_natCast]
      rw [if_pos (Or.inr hr), if_neg hno, if_pos hr]
      rw [← Int.toNat_of_nonneg hr]
      exact pathLenFuel_congr hwf _ (by omega) m (m + 1) (by omega) (by omega) v (d + 1)
    · intro hcase
      simp only [path_length, hm]
      conv_lhs => rw [path_lengthFuel]
      simp only [Int.toNat_natCast]
      rcases hcase with ⟨hl, hr⟩ | ⟨hno, hr⟩
      · rw [if_neg (by omega)]
      · by_cases h0 : 0 ≤ (tl.getD i default).left
        · rw [if_pos (Or.inl h0), if_neg hno, if_neg (by omega)]
        · rw [if_neg (by omega)]
  · intro v hne hl hr
    have hpos : 0 < tl.length := List.length_pos.mpr hne
    obtain ⟨m, hm⟩ : ∃ m, tl.length = m + 1 := ⟨tl.length - 1, by omega⟩
    have hroot : root_id tl = ((tl.length - 1 : ℕ) : ℤ) := by
      rw [root_id]; omega
    simp only [path_length, hroot, hm]
    rw [path_lengthFuel]
    simp only [Int.toNat_natCast]
    rw [if_neg (by rw [hm] at hl hr; omega)]
    norm_num



/-- Folding `acc + g t` over a list equals the initial value plus the
sum of the mapped list. -/
lemma foldl_add_map {β : Type} (g : β → ℝ) :
    ∀ (l : List β) (a : ℝ), l.foldl (fun acc t => acc + g t) a = a + (l.map g).sum := by
  intro l
  induction l with
  | nil => intro a; simp
  | cons t rest ih =>
    intro a
    simp only [List.foldl_cons, List.map_cons, List.sum_cons]
    rw [ih]
    ring

/-- For `n ≥ 2` the expected-path-length normaliser is strictly
positive (so in particular nonzero). -/
lemma calc_depth_pos {n : ℕ} (hn : 2 ≤ n) : 0 < calc_depth n := by
  rw [calc_depth, if_neg (by omega)]
  have hnR : (0 : ℝ) < (n : ℝ) := by exact_mod_cast (by omega : 0 < n)
  rcases eq_or_lt_of_le hn with h2 | h3
  · have hn2 : n = 2 := h2.symm
    subst hn2
    norm_num [Real.log_one]
  · have hx : (2 : ℝ) ≤ ((n - 1 : ℕ) : ℝ) := by
      exact_mod_cast (by omega : (2 : ℕ) ≤ n - 1)
    have hlog : Real.log 2 ≤ Real.log ((n - 1 : ℕ) : ℝ) :=
      Real.log_le_log (by norm_num) hx
    have hlog2 : (0.6931471803 : ℝ) < Real.log 2 := Real.log_two_gt_d9
    have hlt : ((n - 1 : ℕ) : ℝ) < (n : ℝ) := by
      exact_mod_cast Nat.sub_lt (by omega) one_pos
    have hfrac : 2 * ((n - 1 : ℕ) : ℝ) / (n : ℝ) < 2 := by
      rw [div_lt_iff₀ hnR]
      nlinarith
    nlinarith

/-- C1: with at least one tree and `n > 1`, `score` returns
`2 ^ (h / c n)` without negation, where `h` is the sum of the root
path lengths over all trees divided by the tree count and
`c n = 2 (ln (n - 1) + 0.5772156649) - 2 (n - 1) / n`. -/
theorem c1_score_formula (f : IForest ℝ) (v : ℝ) (n : ℕ)
    (hne : f.trees ≠ []) (hn : 2 ≤ n) :
    f.score v n = (2 : ℝ) ^
      (((f.trees.map (fun t => path_length t.tree v (root_id t.tree) 0)).sum /
          (f.trees.length : ℝ)) /
        (2 * (Real.log ((n : ℝ) - 1) + 0.5772156649) - 2 * ((n : ℝ) - 1) / (n : ℝ))) := by
  have hcast : ((n - 1 : ℕ) : ℝ) = (n : ℝ) - 1 := by
    push_cast [Nat.cast_sub (by omega : 1 ≤ n)]
    ring
  rw [IForest.score]
  rw [foldl_add_map, zero_add, calc_depth, if_neg (by omega), hcast]

/-- C7: `calc_depth` returns exactly `0` for every dataset size
`n ≤ 1`, and `score` then divides the average path length by that zero
without any guard; for `n > 1` the divisor is nonzero, so no division
by zero occurs. -/
theorem c7_calc_depth_zero (n : ℕ) (f : IForest ℝ) (v : ℝ) :
    (n ≤ 1 → calc_depth n = 0 ∧
      f.score v n = (2 : ℝ) ^
        ((f.trees.foldl (fun acc t => acc + path_length t.tree v (root_id t.tree) 0) 0 /
          (f.trees.length : ℝ)) / (0 : ℝ))) ∧
    (2 ≤ n → calc_depth n ≠ 0) := by
  constructor
  · intro hn
    have h0 : calc_depth n = 0 := by rw [calc_depth, if_pos hn]
    refine ⟨h0, ?_⟩
    rw [IForest.score, h0]
  · intro hn
    exact ne_of_gt (calc_depth_pos hn)


end IsolationForest

namespace IsolationForest

variable {α : Type} [LinearOrderedField α]

/-- C4: evaluation of `IForest::build` at the failing input — the
EMPTY training sequence.  `shuffle` starts its loop at
`i = size() - 1`, which for an empty buffer wraps (in `std::size_t`)
to `2^64 - 1`, and the first iteration evaluates
`rand() % (i + 1)` whose divisor `i + 1` wraps to `0`: modulo by zero,
undefined behaviour (modelled as `none`), contradicting the claim that
an empty-sequence `build` does not crash. -/
theorem c4_empty_build_crash :
    IForest.build (mkForest 1 1 : IForest ℚ) [] (fun _ => 0) 0 = none := rfl

/-- C5 (counterexample): on the tree built from the nonempty sequence
`[1]` with `max_depth = 1` (rand stream constantly `0`), the descent
for the query value `0` reaches node index `0` (the left leaf of the
root), so not every reached index is strictly positive and the
assertion `node_index > 0` fails on that recursive call. -/
theorem c5_path_assert_cex :
    ¬ (∀ j ∈ pathTrace (builtTree 1 [(1 : ℚ)] (fun _ => 0) 0) (0 : ℚ)
        (root_id (builtTree 1 [(1 : ℚ)] (fun _ => 0) 0)), 0 < j) := by decide

/-- C6 (counterexample): the tree built from the EMPTY sequence with
`max_depth = 1` is a single leaf, and `path_length` at its root with
depth `0` returns `-1`, violating the claimed lower bound `0`. -/
theorem c6_path_length_cex :
    path_length (builtTree 1 ([] : List ℚ) (fun _ => 0) 0) (0 : ℚ)
      (root_id (builtTree 1 ([] : List ℚ) (fun _ => 0) 0)) 0 = -1 ∧
    ¬ (0 ≤ path_length (builtTree 1 ([] : List ℚ) (fun _ => 0) 0) (0 : ℚ)
        (root_id (builtTree 1 ([] : List ℚ) (fun _ => 0) 0)) 0 ∧
       path_length (builtTree 1 ([] : List ℚ) (fun _ => 0) 0) (0 : ℚ)
        (root_id (builtTree 1 ([] : List ℚ) (fun _ => 0) 0)) 0 ≤ ((1 : ℕ) : ℚ)) := by
  decide

/-- C8: evaluation of the partition step at the failing input
`data = [5, 4, 1]`, subrange `[0, 3)`, anchor index `0` (anchor value
`5`).  Because the anchor is read through a reference into the array
being permuted, the first swap replaces it by `1`, and the element `4`
(strictly less than the anchor value `5`) ends up in the right-hand
partition: the result is `([1, 4, 5], mid = 1)` whereas the claim
demands `mid = 0 + 2` and no element `< 5` at or after `mid`. -/
theorem c8_partition_postcondition_cex :
    stdPartition ([5, 4, 1] : List ℚ) 0 0 3 = ([1, 4, 5], 1) ∧
    (stdPartition ([5, 4, 1] : List ℚ) 0 0 3).2 ≠
      0 + ([5, 4, 1] : List ℚ).countP (fun x => decide (x < 5)) ∧
    ((stdPartition ([5, 4, 1] : List ℚ) 0 0 3).2 ≤ 1 ∧
      (stdPartition ([5, 4, 1] : List ℚ) 0 0 3).1.getD 1 0 < 5) := by decide

/-- C9: `ITree::build` and `IForest::build` copy the caller's sequence
into an owned working buffer before any partitioning or shuffling, so
the caller's component of the post-call state is the original input,
unchanged. -/
theorem c9_build_preserves_caller (t : ITree α) (input : List α)
    (rands : ℕ → ℕ) (k : ℕ) (f : IForest α) :
    (ITree.build t input rands k).2.1 = input ∧
    (IForest.build f input rands k).elim True (fun r => r.2.1 = input) := by
  refine ⟨rfl, ?_⟩
  cases h : forestGo rands f.trees input k with
  | none => simp [IForest.build, h]
  | some r =>
    obtain ⟨ts, d, kf⟩ := r
    simp [IForest.build, h]

/-- C10: `IForest::score` reads no random source and mutates no forest
state — two successive runs on the same built forest return the
identical result and leave the forest unchanged. -/
theorem c10_score_deterministic (f : IForest ℝ) (v : ℝ) (n : ℕ) :
    (scoreM (scoreM f v n).2 v n).1 = (scoreM f v n).1 ∧ (scoreM f v n).2 = f ∧
    (scoreM (scoreM f v n).2 v n).2 = f :=
  ⟨rfl, rfl, rfl⟩

/-- Concrete instantiation of `c1_score_formula` (one single-leaf tree,
query `0`, dataset size `2`). -/
theorem c1_score_formula_witness :
    (mkForest 1 1 : IForest ℝ).trees ≠ [] ∧ (2 : ℕ) ≤ 2 ∧
    (mkForest 1 1 : IForest ℝ).score 0 2 = (2 : ℝ) ^
      ((((mkForest 1 1 : IForest ℝ).trees.map
            (fun t => path_length t.tree 0 (root_id t.tree) 0)).sum /
          ((mkForest 1 1 : IForest ℝ).trees.length : ℝ)) /
        (2 * (Real.log (((2 : ℕ) : ℝ) - 1) + 0.5772156649) -
          2 * (((2 : ℕ) : ℝ) - 1) / ((2 : ℕ) : ℝ))) :=
  ⟨by simp [mkForest], le_refl 2,
    c1_score_formula (mkForest 1 1) 0 2 (by simp [mkForest]) (le_refl 2)⟩

/-- Concrete instantiation of `c3_path_length_step` (single-leaf
collection, query `0`): the root is a leaf and the path length is
`-1`. -/
theorem c3_path_length_step_witness :
    WellFormed [({ split_value := 0 } : INode ℚ)] ∧
    path_length [({ split_value := 0 } : INode ℚ)] (0 : ℚ)
      (root_id [({ split_value := 0 } : INode ℚ)]) 0 = (-1 : ℚ) :=
  ⟨by unfold WellFormed; decide,
    (c3_path_length_step [({ split_value := 0 } : INode ℚ)]
        (by unfold WellFormed; decide)).2 0 (by simp) (by decide) (by decide)⟩

/-- Concrete instantiation of `c5_reached_indices` (tree built from
`[1]`, `max_depth = 1`, query `0`). -/
theorem c5_reached_indices_witness :
    0 < root_id (builtTree 1 [(1 : ℚ)] (fun _ => 0) 0) ∧
    ∀ j ∈ pathTrace (builtTree 1 [(1 : ℚ)] (fun _ => 0) 0) (0 : ℚ)
        (root_id (builtTree 1 [(1 : ℚ)] (fun _ => 0) 0)),
      0 ≤ j ∧ j < ((builtTree 1 [(1 : ℚ)] (fun _ => 0) 0).length : ℤ) :=
  c5_reached_indices 1 [(1 : ℚ)] (fun _ => 0) 0 0 (by simp) (le_refl 1)

/-- Concrete instantiation of `c6_path_length_bounds` (tree built from
`[1]`, `max_depth = 1`, query `0`). -/
theorem c6_path_length_bounds_witness :
    0 ≤ path_length (builtTree 1 [(1 : ℚ)] (fun _ => 0) 0) (0 : ℚ)
      (root_id (builtTree 1 [(1 : ℚ)] (fun _ => 0) 0)) 0 ∧
    path_length (builtTree 1 [(1 : ℚ)] (fun _ => 0) 0) (0 : ℚ)
      (root_id (builtTree 1 [(1 : ℚ)] (fun _ => 0) 0)) 0 ≤ ((1 : ℕ) : ℚ) :=
  c6_path_length_bounds 1 [(1 : ℚ)] (fun _ => 0) 0 0 (by simp) (le_refl 1)

/-- Concrete instantiation of `c7_calc_depth_zero` at sizes `1`
(zero divisor) and `5` (nonzero divisor). -/
theorem c7_calc_depth_zero_witness :
    (calc_depth 1 = 0 ∧
      (mkForest 1 1 : IForest ℝ).score 0 1 = (2 : ℝ) ^
        (((mkForest 1 1 : IForest ℝ).trees.foldl
            (fun acc t => acc + path_length t.tree 0 (root_id t.tree) 0) 0 /
          ((mkForest 1 1 : IForest ℝ).trees.length : ℝ)) / (0 : ℝ))) ∧
    calc_depth 5 ≠ 0 :=
  ⟨(c7_calc_depth_zero 1 (mkForest 1 1) 0).1 (le_refl 1),
    (c7_calc_depth_zero 5 (mkForest 1 1) 0).2 (by norm_num)⟩

end IsolationForest
